import Mathlib

/-!
Verification development for the `SecondaryValue` evaluation engine
(`SecondaryValue/SecondaryValue.py`): a derived physical quantity is
computed from an algebraic formula, with first-order Gaussian error
propagation, dependency resolution between chained quantities, default
injection, scalar/vectorized substitution and a per-instance derivative
cache.

Machine floats (`np.float64`) are modelled as real numbers.  Python's
`IndexError` on out-of-range list indexing (ragged vector lengths, empty
tuples) is modelled by total indexing with a junk default value `0`; no
theorem below depends on such an out-of-range access.
-/

namespace SVM

/-- Modelled from the spec: the repository delegates parsing,
free-variable enumeration, symbolic differentiation and compilation to
numeric evaluators to an external symbolic-algebra backend (sympy:
`sympify`, `free_symbols`, `diff`, `lambdify`), which is out of scope of
the source tree.  `Expr` is the abstract syntax tree of the arithmetic
expressions used by the claims: constants, variables, sums and products. -/
inductive Expr : Type where
  | const (c : ℝ)
  | var (name : String)
  | add (e₁ e₂ : Expr)
  | mul (e₁ e₂ : Expr)

/-- Modelled from the spec: numeric evaluation of a compiled expression
(`sympy.lambdify` applied to named arguments). -/
noncomputable def Expr.eval (env : String → ℝ) : Expr → ℝ
  | .const c => c
  | .var n => env n
  | .add a b => a.eval env + b.eval env
  | .mul a b => a.eval env * b.eval env

/-- Modelled from the spec: the free-variable set of a parsed expression
(`self._parsed.free_symbols`, a set of names). -/
def Expr.freeVars : Expr → Finset String
  | .const _ => ∅
  | .var n => {n}
  | .add a b => a.freeVars ∪ b.freeVars
  | .mul a b => a.freeVars ∪ b.freeVars

/-- Modelled from the spec: symbolic differentiation with respect to a
named variable (`sympy.diff`). -/
def Expr.sdiff (v : String) : Expr → Expr
  | .const _ => .const 0
  | .var n => if n = v then .const 1 else .const 0
  | .add a b => .add (a.sdiff v) (b.sdiff v)
  | .mul a b => .add (.mul (a.sdiff v) b) (.mul a (b.sdiff v))

/-- Python dictionaries (insertion-ordered, string keys) are modelled as
association lists in insertion order. -/
abbrev Dict (α : Type) : Type := List (String × α)

/-- First value stored under key `k` (Python `d[k]`, as an `Option`). -/
def lookup? {α : Type} (d : Dict α) (k : String) : Option α :=
  (d.find? (fun p => p.1 == k)).map (fun p => p.2)

/-- `d[k]` with a junk default for the (unreachable) `KeyError` case. -/
def lookupD {α : Type} (d : Dict α) (k : String) (v₀ : α) : α :=
  (lookup? d k).getD v₀

/-- Python `k in d`. -/
def containsKey {α : Type} (d : Dict α) (k : String) : Bool :=
  d.any (fun p => p.1 == k)

/-- Python `list(d.keys())`. -/
def keysOf {α : Type} (d : Dict α) : List String := d.map (fun p => p.1)

/-- Python `set(d.keys())`. -/
def keyset {α : Type} (d : Dict α) : Finset String := (keysOf d).toFinset

/-- One slot of a bound value: a bare number or an array of samples
(numpy array / list of numbers). -/
inductive Atom : Type where
  | num (x : ℝ)
  | arr (xs : List ℝ)

/-- A bound value supplied for one variable: either a single number
(not iterable) or an iterable `(central, error₁, error₂, …)` whose slots
may themselves be scalars or arrays.  A bare Python list `[x₁, …, xₙ]`
is iterable and is therefore also a `seq`, read as central `x₁` with
error components `x₂, …, xₙ`. -/
inductive Binding : Type where
  | num (x : ℝ)
  | seq (items : List Atom)

/-- The value returned by `SecondaryValue.__call__`: a bare central
value, a tuple `(central, error₁, …)`, or such a result paired with the
dependency report. -/
inductive Res : Type where
  | bare (a : Atom)
  | tup (slots : List Atom)
  | pair (inner : Res) (report : List (String × Res))

/-- How a dependency's result is re-bound into the parent's kwargs
(`kwargs[name] = tmp` in `_calc_deps`).  A bare scalar is not iterable;
a bare array result is an iterable of numbers; a result tuple is an
iterable of its slots.  A `pair` result (a dependency that itself
resolved sub-dependencies) would make every later processing step of the
parent raise a `TypeError` in Python; it is mapped to a junk empty
sequence here and no theorem below exercises this case. -/
def asBinding : Res → Binding
  | .bare (.num x) => .num x
  | .bare (.arr xs) => .seq (xs.map (fun x => Atom.num x))
  | .tup slots => .seq slots
  | .pair _ _ => .seq []

/-- A `SecondaryValue` instance: the parsed expression, the declared
dependencies (in declaration order) and the default bindings
(`defaults=False` is the empty list). -/
inductive SV : Type where
  | mk (expr : Expr) (deps : List (String × SV)) (defaults : Dict Binding)

def SV.expr : SV → Expr
  | .mk e _ _ => e

def SV.deps : SV → List (String × SV)
  | .mk _ d _ => d

def SV.defaults : SV → Dict Binding
  | .mk _ _ df => df

/-- `SecondaryValue.__init__`: the declared dependency map is filtered
to the names that actually occur as free variables of the expression. -/
def SV.make (e : Expr) (dependencies : List (String × SV)) (defaults : Dict Binding) : SV :=
  .mk e (dependencies.filter (fun p => decide (p.1 ∈ e.freeVars))) defaults

/-- The mutable per-instance derivative caches (`self._derivatives` of a
quantity and, recursively, of its dependency quantities), made explicit
as a state threaded through the call.  The outer `lru_cache` layer of
`_get_derivatives` memoizes values that the cache-invariance theorems
below prove equal to a fresh computation, so it needs no separate
state. -/
inductive CacheT : Type where
  | mk (own : Dict Expr) (depCaches : List CacheT)

def CacheT.own : CacheT → Dict Expr
  | .mk o _ => o

def CacheT.depCaches : CacheT → List CacheT
  | .mk _ d => d

mutual
/-- The empty cache state of a freshly constructed instance. -/
def SV.initCache : SV → CacheT
  | .mk _ deps _ => .mk [] (initCaches deps)

def initCaches : List (String × SV) → List CacheT
  | [] => []
  | (_, q) :: rest => q.initCache :: initCaches rest
end

/-- `SecondaryValue._inject_defaults`: each default whose name is absent
is appended; present names are never overridden. -/
def inject_defaults (defaults : Dict Binding) (kwargs : Dict Binding) : Dict Binding :=
  defaults.foldl (fun kw p => if containsKey kw p.1 then kw else kw ++ [p]) kwargs

/-- `len(val)` for iterable bindings, `none` for plain numbers. -/
def tupleLen : Binding → Option ℕ
  | .num _ => none
  | .seq items => some items.length

/-- `max([len(val) for _, val in kwargs.items() if isinstance(val, Iterable)] or [0])`.
Python's `max` of a list of naturals (with `0` fallback) is the
order-insensitive fold below. -/
def max_uncertainties (kwargs : Dict Binding) : ℕ :=
  ((kwargs.filterMap (fun p => tupleLen p.2)).foldr max 0)

/-- The error columns of `_process_args`: for each `i` in
`range(1, max_uncertainties)`, the dictionary of `val[i]` over the
iterable bindings with `len(val) > i`. -/
def errorsOf (kwargs : Dict Binding) : List (Dict Atom) :=
  (List.range' 1 (max_uncertainties kwargs - 1)).map (fun i =>
    kwargs.filterMap (fun p => match p.2 with
      | .num _ => none
      | .seq items => if i < items.length then some (p.1, items.getD i (.num 0)) else none))

/-- `val[0] if isinstance(val, Iterable) else val` (an empty tuple would
raise `IndexError` in Python; junk `0` here). -/
def central0 : Binding → Atom
  | .num x => .num x
  | .seq items => items.headD (.num 0)

/-- The central-value dictionary of `_process_args`. -/
def valuesOf (kwargs : Dict Binding) : Dict Atom :=
  kwargs.map (fun p => (p.1, central0 p.2))

/-- The defensive filter of `_process_args`: bindings for names outside
the free-variable set are discarded. -/
def filterSymbols (symbols : Finset String) (kwargs : Dict Binding) : Dict Binding :=
  kwargs.filter (fun p => decide (p.1 ∈ symbols))

/-- `filter_out_vecotrized` (sic): split a dictionary into its scalar
and its array-valued entries, preserving order. -/
def filter_out_vecotrized (d : Dict Atom) : Dict ℝ × Dict (List ℝ) :=
  (d.filterMap (fun p => match p.2 with | .num x => some (p.1, x) | .arr _ => none),
   d.filterMap (fun p => match p.2 with | .arr xs => some (p.1, xs) | .num _ => none))

/-- `join_row`: merge the scalar row with sample `index` of every vector
entry (key sets are disjoint in every use, so the merge is an append). -/
def join_row (scalar : Dict ℝ) (vector : Dict (List ℝ)) (index : ℕ) : Dict ℝ :=
  scalar ++ vector.map (fun p => (p.1, p.2.getD index 0))

/-- The named-argument environment a compiled evaluator is applied to. -/
def envOf (d : Dict ℝ) : String → ℝ := fun n => lookupD d n 0

/-- Coerce an error-column entry to the scalar Python's `err > 0` test
expects; an array entry in a column with vector length `0` can only be
the empty array, which Python's truthiness test likewise excludes, so
the junk value `0` is excluded exactly as Python excludes the entry. -/
def scalarAtom : Atom → ℝ
  | .num x => x
  | .arr _ => 0

/-- `max([len(elem) for elem in vector_values.values()] or [0])`. -/
def vecLenMax (vector : Dict (List ℝ)) : ℕ :=
  (vector.map (fun p => p.2.length)).foldr max 0

/-- `SecondaryValue._calculate_central_value`. -/
noncomputable def calculate_central_value (e : Expr) (scalar_values : Dict ℝ)
    (vector_values : Dict (List ℝ)) : Atom :=
  if vector_values.isEmpty then Atom.num (e.eval (envOf scalar_values))
  else Atom.arr ((List.range (vecLenMax vector_values)).map (fun i =>
    e.eval (envOf (join_row scalar_values vector_values i))))

open Classical in
/-- `SecondaryValue._calculate_gauss_propagation`: the root of the dot
product of the vector of `derivs[var](**values) * err` over the entries
with `err > 0`. -/
noncomputable def calculate_gauss_propagation (values : Dict ℝ) (derivs : Dict Expr)
    (error : Dict ℝ) : ℝ :=
  let term := error.filterMap (fun p =>
    if 0 < p.2 then some ((lookupD derivs p.1 (Expr.const 0)).eval (envOf values) * p.2)
    else none)
  Real.sqrt ((term.map (fun t => t * t)).sum)

/-- `SecondaryValue._calculate_errors` given the derivative dictionary
already fetched for the first column's keys. -/
noncomputable def calculate_errors (derivs : Dict Expr) (errors : List (Dict Atom))
    (vector_values : Dict (List ℝ)) (scalar_values : Dict ℝ) : List Atom :=
  errors.map (fun error =>
    let scalar_errors := (filter_out_vecotrized error).1
    let vector_errors := (filter_out_vecotrized error).2
    let length := ((vector_values ++ vector_errors).map (fun p => p.2.length)).foldr max 0
    if length = 0 then
      Atom.num (calculate_gauss_propagation scalar_values derivs
        (error.map (fun p => (p.1, scalarAtom p.2))))
    else
      Atom.arr ((List.range length).map (fun i =>
        calculate_gauss_propagation (join_row scalar_values vector_values i) derivs
          (join_row scalar_errors vector_errors i))))

/-- Cache population of `_get_derivatives`: missing variables get the
compiled derivative of the parsed expression appended. -/
def extend_derivatives (e : Expr) (cache : Dict Expr) (args : List String) : Dict Expr :=
  args.foldl (fun c v => if containsKey c v then c else c ++ [(v, e.sdiff v)]) cache

/-- `SecondaryValue._get_derivatives`: returns the requested derivative
dictionary together with the updated cache. -/
def get_derivatives (e : Expr) (cache : Dict Expr) (args : List String) :
    Dict Expr × Dict Expr :=
  let c := extend_derivatives e cache args
  (args.map (fun v => (v, lookupD c v (Expr.const 0))), c)

/-- The error surfaced by `_process_args` (`RuntimeError('Missing
symbols: …')`, named `MissingSymbols` by the spec), carrying the set
difference it is built from. -/
inductive CallErr : Type where
  | missingSymbols (missing : Finset String)

mutual
/-- `SecondaryValue.__call__` with the derivative caches threaded
explicitly: dependency resolution, default injection, completeness
check, defensive filtering, central value, error columns, result
assembly.  The dependency report is attached only when both an error
column exists and a dependency was actually computed (lines 229-242 of
the source: the `if not errors` branch returns the bare central value). -/
noncomputable def SV.callC : SV → CacheT → Dict Binding → (Except CallErr Res) × CacheT
  | .mk e deps defaults, .mk own depCaches, kwargs =>
    match calc_deps deps depCaches kwargs with
    | (.error err, depCaches') => (.error err, .mk own depCaches')
    | (.ok (kwargs₁, dep_values), depCaches') =>
      let kwargs₂ := inject_defaults defaults kwargs₁
      if e.freeVars ⊆ keyset kwargs₂ then
        let kwargs₃ := filterSymbols e.freeVars kwargs₂
        let errors := errorsOf kwargs₃
        let values := valuesOf kwargs₃
        let scalar_values := (filter_out_vecotrized values).1
        let vector_values := (filter_out_vecotrized values).2
        let central := calculate_central_value e scalar_values vector_values
        if errors.isEmpty then (.ok (.bare central), .mk own depCaches')
        else
          let firstKeys := keysOf (errors.headD [])
          let gd := get_derivatives e own firstKeys
          let terms := calculate_errors gd.1 errors vector_values scalar_values
          let res := Res.tup (central :: terms)
          if dep_values.isEmpty then (.ok res, .mk gd.2 depCaches')
          else (.ok (.pair res dep_values), .mk gd.2 depCaches')
      else
        (.error (.missingSymbols (e.freeVars \ keyset kwargs₂)), .mk own depCaches')

/-- `SecondaryValue._calc_deps`: every declared dependency not directly
bound is invoked with the current kwargs; its full result is re-bound
under the dependency's name and recorded in the report.  The cache list
is threaded positionally alongside the dependency list. -/
noncomputable def calc_deps : List (String × SV) → List CacheT → Dict Binding →
    (Except CallErr (Dict Binding × List (String × Res))) × List CacheT
  | [], caches, kwargs => (.ok (kwargs, []), caches)
  | (name, q) :: rest, caches, kwargs =>
    let c := caches.headD (.mk [] [])
    let cRest := caches.tail
    if containsKey kwargs name then
      let r := calc_deps rest cRest kwargs
      (r.1, c :: r.2)
    else
      match q.callC c kwargs with
      | (.error err, c') => (.error err, c' :: cRest)
      | (.ok tmp, c') =>
        match calc_deps rest cRest (kwargs ++ [(name, asBinding tmp)]) with
        | (.error err, caches') => (.error err, c' :: caches')
        | (.ok (kw, dep_values), caches') =>
          (.ok (kw, (name, tmp) :: dep_values), c' :: caches')
end

/-- The public call: run on the freshly-constructed (empty) caches and
return the result. -/
noncomputable def call (sv : SV) (kwargs : Dict Binding) : Except CallErr Res :=
  (sv.callC sv.initCache kwargs).1

/-- Every entry of a derivative cache is the compiled derivative of the
quantity's parsed expression: the invariant the lazily grown
`self._derivatives` maintains. -/
def validOwn (e : Expr) (own : Dict Expr) : Prop :=
  ∀ p ∈ own, p.2 = e.sdiff p.1

/-- The column-building function of `_process_args` for error index `i`. -/
def columnAt (kwargs : Dict Binding) (i : ℕ) : Dict Atom :=
  kwargs.filterMap (fun p => match p.2 with
    | .num _ => none
    | .seq items => if i < items.length then some (p.1, items.getD i (.num 0)) else none)

mutual
/-- The derivative-cache tree of a quantity is valid: every cached
entry is the derivative of the owning quantity's expression, and the
dependency caches are recursively valid. -/
def validC : SV → CacheT → Prop
  | .mk e deps _, .mk own depCaches => validOwn e own ∧ validCs deps depCaches

def validCs : List (String × SV) → List CacheT → Prop
  | [], [] => True
  | (_, q) :: rest, c :: cs => validC q c ∧ validCs rest cs
  | [], _ :: _ => False
  | _ :: _, [] => False
end

/-- Two bindings are equivalent when they are equal or the second wraps
the first scalar as a one-element tuple `(v,)`. -/
def bindingEquiv (b₁ b₂ : Binding) : Prop :=
  b₁ = b₂ ∨ ∃ v, b₁ = .num v ∧ b₂ = .seq [.num v]

/-- Pointwise equivalence of two keyword-argument dictionaries. -/
def kwargsEquiv (k₁ k₂ : Dict Binding) : Prop :=
  List.Forall₂ (fun p q => p.1 = q.1 ∧ bindingEquiv p.2 q.2) k₁ k₂

/-- Relation between the outcomes of `_calc_deps` on equivalent kwargs:
identical errors and reports, equivalent augmented kwargs. -/
def depRel : Except CallErr (Dict Binding × List (String × Res)) →
    Except CallErr (Dict Binding × List (String × Res)) → Prop
  | .error e₁, .error e₂ => e₁ = e₂
  | .ok (kw₁, rep₁), .ok (kw₂, rep₂) => kwargsEquiv kw₁ kw₂ ∧ rep₁ = rep₂
  | .error _, .ok _ => False
  | .ok _, .error _ => False

/-- The quantity `SecondaryValue('a*b+c')` of the test suite. -/
def svABC : SV :=
  SV.make (Expr.add (Expr.mul (Expr.var "a") (Expr.var "b")) (Expr.var "c")) [] []

/-- The dependency quantity `SecondaryValue('b')` of the test suite. -/
def svX : SV := SV.make (Expr.var "b") [] []

/-- `SecondaryValue('a + x', dependencies=dict(x=SecondaryValue('b')))`. -/
def svY : SV := SV.make (Expr.add (Expr.var "a") (Expr.var "x")) [("x", svX)] []

/-- `SecondaryValue('a + b', defaults=dict(a=(1, 2)))`. -/
def svAB : SV :=
  SV.make (Expr.add (Expr.var "a") (Expr.var "b")) [] [("a", .seq [.num 1, .num 2])]

/-- The identity quantity `SecondaryValue('a')`. -/
def svA : SV := SV.make (Expr.var "a") [] []

/-! ### Dictionary lemmas -/

theorem lookup?_cons_eq {α : Type} {p : String × α} {rest : Dict α} {k : String}
    (h : (p.1 == k) = true) : lookup? (p :: rest) k = some p.2 := by
  simp [lookup?, List.find?_cons, h]

theorem lookup?_cons_ne {α : Type} {p : String × α} {rest : Dict α} {k : String}
    (h : (p.1 == k) = false) : lookup? (p :: rest) k = lookup? rest k := by
  simp [lookup?, List.find?_cons, h]

theorem containsKey_cons {α : Type} {p : String × α} {rest : Dict α} {k : String} :
    containsKey (p :: rest) k = ((p.1 == k) || containsKey rest k) := by
  simp [containsKey]

theorem lookup?_mem {α : Type} {d : Dict α} {k : String} {v : α}
    (h : lookup? d k = some v) : (k, v) ∈ d := by
  induction d with
  | nil => simp [lookup?] at h
  | cons p rest ih =>
    by_cases hk : (p.1 == k) = true
    · rw [lookup?_cons_eq hk] at h
      have hkey : p.1 = k := by simpa using hk
      have : p = (k, v) := by
        obtain ⟨a, b⟩ := p
        simp at hkey h ⊢
        exact ⟨hkey, h⟩
      rw [← this]
      exact List.mem_cons_self p rest
    · rw [lookup?_cons_ne (by simpa using hk)] at h
      exact List.mem_cons_of_mem p (ih h)

theorem containsKey_lookup {α : Type} {d : Dict α} {k : String}
    (h : containsKey d k = true) : ∃ v, lookup? d k = some v := by
  induction d with
  | nil => simp [containsKey] at h
  | cons p rest ih =>
    by_cases hk : (p.1 == k) = true
    · exact ⟨p.2, lookup?_cons_eq hk⟩
    · have hk' : (p.1 == k) = false := by simpa using hk
      rw [containsKey_cons, hk', Bool.false_or] at h
      obtain ⟨v, hv⟩ := ih h
      exact ⟨v, by rw [lookup?_cons_ne (by simpa using hk)]; exact hv⟩

theorem containsKey_append_left {α : Type} {d : Dict α} {k : String} (l : Dict α)
    (h : containsKey d k = true) : containsKey (d ++ l) k = true := by
  simp [containsKey, List.any_append] at h ⊢
  exact Or.inl h

/-! ### Derivative-cache lemmas -/

theorem validOwn_nil (e : Expr) : validOwn e [] := by
  intro p hp; simp at hp

theorem validOwn_extend {e : Expr} {c : Dict Expr} (args : List String)
    (h : validOwn e c) : validOwn e (extend_derivatives e c args) := by
  induction args generalizing c with
  | nil => exact h
  | cons a rest ih =>
    unfold extend_derivatives
    simp only [List.foldl_cons]
    apply ih
    by_cases hc : containsKey c a = true
    · simp [hc]; exact h
    · simp [hc]
      intro p hp
      rcases List.mem_append.mp hp with h1 | h1
      · exact h p h1
      · simp at h1
        rw [h1]

theorem containsKey_extend_mono {e : Expr} {c : Dict Expr} {v : String} (args : List String)
    (h : containsKey c v = true) : containsKey (extend_derivatives e c args) v = true := by
  induction args generalizing c with
  | nil => exact h
  | cons a rest ih =>
    unfold extend_derivatives
    simp only [List.foldl_cons]
    apply ih
    by_cases hc : containsKey c a = true
    · simp [hc]; exact h
    · simp [hc]; exact containsKey_append_left _ h

theorem containsKey_extend {e : Expr} {c : Dict Expr} {v : String} {args : List String}
    (h : v ∈ args) : containsKey (extend_derivatives e c args) v = true := by
  induction args generalizing c with
  | nil => simp at h
  | cons a rest ih =>
    unfold extend_derivatives
    simp only [List.foldl_cons]
    rcases List.mem_cons.mp h with h1 | h1
    · subst h1
      have step : containsKey (if containsKey c v = true then c else c ++ [(v, e.sdiff v)]) v = true := by
        by_cases hc : containsKey c v = true
        · rw [if_pos hc]; exact hc
        · rw [if_neg hc]
          simp [containsKey, List.any_append]
      exact containsKey_extend_mono rest step
    · exact ih h1

theorem lookup?_validOwn {e : Expr} {c : Dict Expr} {v : String} {d : Expr}
    (hv : validOwn e c) (h : lookup? c v = some d) : d = e.sdiff v := by
  have hm := lookup?_mem h
  exact hv (v, d) hm

/-- Under a valid cache, `_get_derivatives` returns exactly the
symbolic derivatives of the requested variables, and leaves the cache
valid. -/
theorem get_derivatives_of_valid {e : Expr} {c : Dict Expr} (args : List String)
    (h : validOwn e c) :
    (get_derivatives e c args).1 = args.map (fun v => (v, e.sdiff v)) ∧
      validOwn e (get_derivatives e c args).2 := by
  constructor
  · unfold get_derivatives
    simp only
    apply List.map_congr_left
    intro v hv
    have hck := containsKey_extend (c := c) (e := e) hv
    obtain ⟨d, hd⟩ := containsKey_lookup hck
    have := lookup?_validOwn (validOwn_extend args h) hd
    simp [lookupD, hd, this]
  · exact validOwn_extend args h

/-! ### Gauss-propagation lemmas -/

theorem filterMap_sq_sum (g : String × ℝ → ℝ) :
    ∀ (error : List (String × ℝ)), (∀ p ∈ error, 0 ≤ p.2) →
      ((error.filterMap (fun p => if 0 < p.2 then some (g p * p.2) else none)).map
        (fun t => t * t)).sum
        = (error.map (fun p => (g p * p.2) ^ 2)).sum := by
  intro error h
  induction error with
  | nil => simp
  | cons p rest ih =>
    have hp := h p (List.mem_cons_self p rest)
    have hrest : ∀ q ∈ rest, 0 ≤ q.2 := fun q hq => h q (List.mem_cons_of_mem p hq)
    rcases lt_or_eq_of_le hp with hlt | heq
    · rw [List.filterMap_cons, if_pos hlt, List.map_cons, List.sum_cons, List.map_cons,
        List.sum_cons, ih hrest]
      ring_nf
    · rw [List.filterMap_cons, if_neg (by rw [← heq]; exact lt_irrefl 0), List.map_cons,
        List.sum_cons, ih hrest, ← heq, mul_zero, zero_pow (by norm_num : (2:ℕ) ≠ 0),
        zero_add]

/-- With nonnegative uncertainties, the `err > 0` filter drops only
terms that are zero anyway: the combined error is the root of the sum,
over all entries of the column, of (derivative · uncertainty)². -/
theorem gauss_eq_quadrature (values : Dict ℝ) (derivs : Dict Expr) (error : Dict ℝ)
    (h : ∀ p ∈ error, 0 ≤ p.2) :
    calculate_gauss_propagation values derivs error =
      Real.sqrt ((error.map (fun p =>
        ((lookupD derivs p.1 (Expr.const 0)).eval (envOf values) * p.2) ^ 2)).sum) := by
  simp only [calculate_gauss_propagation]
  congr 1
  exact filterMap_sq_sum (fun p => (lookupD derivs p.1 (Expr.const 0)).eval (envOf values))
    error h

/-- A zero-uncertainty entry anywhere in a column is excluded from the
quadrature: removing it does not change the combined error. -/
theorem gauss_drops_zero (values : Dict ℝ) (derivs : Dict Expr)
    (pre post : Dict ℝ) (v : String) :
    calculate_gauss_propagation values derivs (pre ++ (v, 0) :: post) =
      calculate_gauss_propagation values derivs (pre ++ post) := by
  simp only [calculate_gauss_propagation, List.filterMap_append, List.filterMap_cons]
  rw [if_neg (lt_irrefl 0)]

/-! ### More dictionary lemmas -/

theorem lookup?_eq_none {α : Type} {d : Dict α} {k : String}
    (h : containsKey d k = false) : lookup? d k = none := by
  induction d with
  | nil => simp [lookup?]
  | cons p rest ih =>
    rw [containsKey_cons] at h
    simp only [Bool.or_eq_false_iff] at h
    rw [lookup?_cons_ne h.1]
    exact ih h.2

theorem containsKey_append {α : Type} {d l : Dict α} {k : String} :
    containsKey (d ++ l) k = (containsKey d k || containsKey l k) := by
  simp [containsKey, List.any_append]

theorem lookup?_append_of_contains {α : Type} {d : Dict α} {k : String} (l : Dict α)
    (h : containsKey d k = true) : lookup? (d ++ l) k = lookup? d k := by
  obtain ⟨v, hv⟩ := containsKey_lookup h
  unfold lookup? at hv ⊢
  rw [List.find?_append]
  cases hf : List.find? (fun p => p.1 == k) d with
  | none => rw [hf] at hv; simp at hv
  | some q => simp [hf]

theorem lookup?_append_of_absent {α : Type} {d : Dict α} {k : String} (l : Dict α)
    (h : containsKey d k = false) : lookup? (d ++ l) k = lookup? l k := by
  have hn := lookup?_eq_none h
  unfold lookup? at hn ⊢
  rw [List.find?_append]
  cases hf : List.find? (fun p => p.1 == k) d with
  | none => simp [hf]
  | some q => rw [hf] at hn; simp at hn

/-! ### Error-column lemmas -/

theorem errorsOf_eq_columns (kwargs : Dict Binding) :
    errorsOf kwargs = (List.range' 1 (max_uncertainties kwargs - 1)).map (columnAt kwargs) := by
  rfl

/-- A key present in any error column is present in the first error
column: later columns only ever use subsets of the first column's
variables, so every derivative lookup during `_calculate_errors`
succeeds. -/
theorem errorsOf_keys_subset {kwargs : Dict Binding} {col : Dict Atom} {v : String}
    (hcol : col ∈ errorsOf kwargs) (hv : v ∈ keysOf col) :
    v ∈ keysOf ((errorsOf kwargs).headD []) := by
  rw [errorsOf_eq_columns] at hcol ⊢
  obtain ⟨i, hi, hcoleq⟩ := List.mem_map.mp hcol
  have hi1 : 1 ≤ i := (List.mem_range'_1.mp hi).1
  subst hcoleq
  obtain ⟨p, hp, hpkey⟩ := List.mem_map.mp hv
  obtain ⟨q, hq, hqmatch⟩ := List.mem_filterMap.mp hp
  obtain ⟨qk, qv⟩ := q
  cases qv with
  | num x => simp [columnAt] at hqmatch
  | seq items =>
    simp only [columnAt] at hqmatch
    by_cases hlen : i < items.length
    · rw [if_pos hlen] at hqmatch
      have hkq : qk = v := by
        have := Option.some.inj hqmatch
        rw [← hpkey, ← this]
      have hlen1 : 1 < items.length := lt_of_le_of_lt hi1 hlen
      have hn : ∃ m, max_uncertainties kwargs - 1 = m + 1 := by
        rcases Nat.exists_eq_add_of_lt (List.mem_range'_1.mp hi).2 with ⟨m, hm⟩
        have : 1 ≤ max_uncertainties kwargs - 1 := by omega
        exact ⟨max_uncertainties kwargs - 2, by omega⟩
      obtain ⟨m, hm⟩ := hn
      rw [hm, List.range'_succ]
      simp only [List.map_cons, List.headD_cons]
      apply List.mem_map.mpr
      refine ⟨(qk, items.getD 1 (.num 0)), ?_, hkq⟩
      apply List.mem_filterMap.mpr
      exact ⟨(qk, .seq items), hq, by simp [columnAt, if_pos hlen1]⟩
    · rw [if_neg hlen] at hqmatch
      simp at hqmatch

/-! ### Default-injection lemmas -/

theorem inject_defaults_preserves (defaults : Dict Binding) :
    ∀ (kwargs : Dict Binding) (name : String), containsKey kwargs name = true →
      lookup? (inject_defaults defaults kwargs) name = lookup? kwargs name ∧
        containsKey (inject_defaults defaults kwargs) name = true := by
  induction defaults with
  | nil => intro kwargs name h; exact ⟨rfl, h⟩
  | cons p rest ih =>
    intro kwargs name h
    unfold inject_defaults
    simp only [List.foldl_cons]
    by_cases hc : containsKey kwargs p.1 = true
    · rw [if_pos hc]
      exact ih kwargs name h
    · rw [if_neg hc]
      have h' := containsKey_append_left [p] h
      obtain ⟨h1, h2⟩ := ih (kwargs ++ [p]) name h'
      refine ⟨?_, h2⟩
      exact h1.trans (lookup?_append_of_contains [p] h)

theorem inject_defaults_inserts (defaults : Dict Binding) :
    ∀ (kwargs : Dict Binding) (name : String) (v : Binding),
      containsKey kwargs name = false → lookup? defaults name = some v →
        lookup? (inject_defaults defaults kwargs) name = some v := by
  induction defaults with
  | nil => intro kwargs name v _ hdef; simp [lookup?] at hdef
  | cons p rest ih =>
    intro kwargs name v habs hdef
    unfold inject_defaults
    simp only [List.foldl_cons]
    by_cases hk : (p.1 == name) = true
    · have hkey : p.1 = name := by simpa using hk
      rw [lookup?_cons_eq hk] at hdef
      have hc : containsKey kwargs p.1 = false := by rw [hkey]; exact habs
      rw [if_neg (by rw [hc]; simp)]
      have hcontains : containsKey (kwargs ++ [p]) name = true := by
        rw [containsKey_append]
        simp [containsKey, hk]
      have := (inject_defaults_preserves rest (kwargs ++ [p]) name hcontains).1
      unfold inject_defaults at this
      rw [this, lookup?_append_of_absent [p] habs, lookup?_cons_eq hk, hdef]
    · have hk' : (p.1 == name) = false := by simpa using hk
      rw [lookup?_cons_ne hk'] at hdef
      by_cases hc : containsKey kwargs p.1 = true
      · rw [if_pos hc]
        exact ih kwargs name v habs hdef
      · rw [if_neg hc]
        have habs' : containsKey (kwargs ++ [p]) name = false := by
          rw [containsKey_append, habs]
          simp [containsKey, hk']
        exact ih (kwargs ++ [p]) name v habs' hdef

/-! ### Cache validity -/

mutual
theorem validC_init : ∀ sv : SV, validC sv sv.initCache
  | .mk e deps df => by
    rw [SV.initCache, validC]
    exact ⟨validOwn_nil e, validCs_init deps⟩

theorem validCs_init : ∀ deps : List (String × SV), validCs deps (initCaches deps)
  | [] => by rw [initCaches, validCs]; trivial
  | (n, q) :: rest => by
    rw [initCaches, validCs]
    exact ⟨validC_init q, validCs_init rest⟩
end

/-! ### Cache invariance: the mutable derivative caches never change
any output -/

theorem cache_inv : ∀ n : ℕ,
    (∀ sv : SV, sizeOf sv ≤ n → ∀ c k, validC sv c →
      (sv.callC c k).1 = (sv.callC sv.initCache k).1 ∧ validC sv (sv.callC c k).2) ∧
    (∀ deps : List (String × SV), sizeOf deps ≤ n → ∀ cs k, validCs deps cs →
      (calc_deps deps cs k).1 = (calc_deps deps (initCaches deps) k).1 ∧
        validCs deps (calc_deps deps cs k).2) := by
  intro n
  induction n using Nat.strong_induction_on with
  | _ n IH =>
  constructor
  · intro sv hsz c k hv
    obtain ⟨e, deps, df⟩ := sv
    obtain ⟨own, dcs⟩ := c
    rw [validC] at hv
    obtain ⟨hOwn, hDeps⟩ := hv
    have hlt : sizeOf deps < sizeOf (SV.mk e deps df) := by
      simp [SV.mk.sizeOf_spec]
      omega
    have hdIH := (IH (sizeOf deps) (lt_of_lt_of_le hlt hsz)).2 deps le_rfl
    rcases hc1 : calc_deps deps dcs k with ⟨r1, dcs1⟩
    rcases hc2 : calc_deps deps (initCaches deps) k with ⟨r2, dcs2⟩
    have heq : r1 = r2 := by
      have h := (hdIH dcs k hDeps).1
      rw [hc1, hc2] at h
      exact h
    have hval1 : validCs deps dcs1 := by
      have h := (hdIH dcs k hDeps).2
      rw [hc1] at h
      exact h
    subst heq
    have hinit : (SV.mk e deps df).initCache = CacheT.mk [] (initCaches deps) := by
      rw [SV.initCache]
    rw [hinit]
    simp only [SV.callC, hc1, hc2]
    cases r1 with
    | error err =>
      constructor
      · rfl
      · rw [validC]
        exact ⟨hOwn, hval1⟩
    | ok pr =>
      obtain ⟨kwargs₁, dep_values⟩ := pr
      simp only
      by_cases hsub : e.freeVars ⊆ keyset (inject_defaults df kwargs₁)
      · rw [if_pos hsub, if_pos hsub]
        by_cases herr : (errorsOf (filterSymbols e.freeVars (inject_defaults df kwargs₁))).isEmpty = true
        · rw [if_pos herr, if_pos herr]
          constructor
          · rfl
          · rw [validC]
            exact ⟨hOwn, hval1⟩
        · rw [if_neg herr, if_neg herr]
          have hgd1 := get_derivatives_of_valid
            (keysOf ((errorsOf (filterSymbols e.freeVars (inject_defaults df kwargs₁))).headD []))
            hOwn
          have hgd2 := get_derivatives_of_valid
            (keysOf ((errorsOf (filterSymbols e.freeVars (inject_defaults df kwargs₁))).headD []))
            (validOwn_nil e)
          by_cases hdv : dep_values.isEmpty = true
          · rw [if_pos hdv, if_pos hdv]
            constructor
            · simp only [hgd1.1, hgd2.1]
            · rw [validC]
              exact ⟨hgd1.2, hval1⟩
          · rw [if_neg hdv, if_neg hdv]
            constructor
            · simp only [hgd1.1, hgd2.1]
            · rw [validC]
              exact ⟨hgd1.2, hval1⟩
      · rw [if_neg hsub, if_neg hsub]
        constructor
        · rfl
        · rw [validC]
          exact ⟨hOwn, hval1⟩
  · intro deps hsz cs k hv
    cases deps with
    | nil =>
      cases cs with
      | nil => exact ⟨rfl, trivial⟩
      | cons c cs' =>
        rw [validCs] at hv
        exact absurd hv not_false
    | cons hd rest =>
      obtain ⟨name, q⟩ := hd
      cases cs with
      | nil =>
        rw [validCs] at hv
        exact absurd hv not_false
      | cons c cs' =>
        rw [validCs] at hv
        obtain ⟨hqc, hrest⟩ := hv
        have sizeq : sizeOf q < sizeOf ((name, q) :: rest) := by
          simp
          omega
        have sizer : sizeOf rest < sizeOf ((name, q) :: rest) := by
          simp
        have IHq := (IH _ (lt_of_lt_of_le sizeq hsz)).1 q le_rfl
        have IHr := (IH _ (lt_of_lt_of_le sizer hsz)).2 rest le_rfl
        have hinitc : initCaches ((name, q) :: rest) = q.initCache :: initCaches rest := by
          rw [initCaches]
        rw [hinitc]
        simp only [calc_deps, List.headD_cons, List.tail_cons]
        by_cases hck : containsKey k name = true
        · rw [if_pos hck, if_pos hck]
          rcases hr1 : calc_deps rest cs' k with ⟨s1, es1⟩
          rcases hr2 : calc_deps rest (initCaches rest) k with ⟨s2, es2⟩
          have heq : s1 = s2 := by
            have h := (IHr cs' k hrest).1
            rw [hr1, hr2] at h
            exact h
          have hval : validCs rest es1 := by
            have h := (IHr cs' k hrest).2
            rw [hr1] at h
            exact h
          subst heq
          constructor
          · rfl
          · rw [validCs]
            exact ⟨hqc, hval⟩
        · rw [if_neg hck, if_neg hck]
          rcases hq1 : q.callC c k with ⟨t1, c1⟩
          rcases hq2 : q.callC q.initCache k with ⟨t2, c2⟩
          have heqt : t1 = t2 := by
            have h := (IHq c k hqc).1
            rw [hq1, hq2] at h
            exact h
          have hvalc : validC q c1 := by
            have h := (IHq c k hqc).2
            rw [hq1] at h
            exact h
          subst heqt
          cases t1 with
          | error err =>
            constructor
            · rfl
            · rw [validCs]
              exact ⟨hvalc, hrest⟩
          | ok tmp =>
            simp only
            rcases hr1 : calc_deps rest cs' (k ++ [(name, asBinding tmp)]) with ⟨s1, es1⟩
            rcases hr2 : calc_deps rest (initCaches rest) (k ++ [(name, asBinding tmp)]) with ⟨s2, es2⟩
            have heq : s1 = s2 := by
              have h := (IHr cs' (k ++ [(name, asBinding tmp)]) hrest).1
              rw [hr1, hr2] at h
              exact h
            have hval : validCs rest es1 := by
              have h := (IHr cs' (k ++ [(name, asBinding tmp)]) hrest).2
              rw [hr1] at h
              exact h
            subst heq
            cases s1 with
            | error err =>
              constructor
              · rfl
              · rw [validCs]
                exact ⟨hvalc, hval⟩
            | ok pr =>
              obtain ⟨kw, dvs⟩ := pr
              constructor
              · rfl
              · rw [validCs]
                exact ⟨hvalc, hval⟩

/-! ### One-element-tuple equivalence machinery -/

theorem kwargsEquiv_refl (k : Dict Binding) : kwargsEquiv k k := by
  apply List.forall₂_same.mpr
  intro p _
  exact ⟨rfl, Or.inl rfl⟩

theorem keysOf_equiv {k₁ k₂ : Dict Binding} (h : kwargsEquiv k₁ k₂) :
    keysOf k₁ = keysOf k₂ := by
  induction h with
  | nil => rfl
  | cons hpq _ ih =>
    simp only [keysOf, List.map_cons] at ih ⊢
    rw [hpq.1, ih]

theorem containsKey_keys {α : Type} (d : Dict α) (k : String) :
    containsKey d k = (keysOf d).any (fun s => s == k) := by
  induction d with
  | nil => rfl
  | cons p rest ih =>
    simp only [containsKey, keysOf, List.map_cons, List.any_cons] at ih ⊢
    rw [ih]

theorem containsKey_equiv {k₁ k₂ : Dict Binding} (h : kwargsEquiv k₁ k₂) (name : String) :
    containsKey k₁ name = containsKey k₂ name := by
  rw [containsKey_keys, containsKey_keys, keysOf_equiv h]

theorem keyset_equiv {k₁ k₂ : Dict Binding} (h : kwargsEquiv k₁ k₂) :
    keyset k₁ = keyset k₂ := by
  unfold keyset
  rw [keysOf_equiv h]

theorem kwargsEquiv_append {k₁ k₂ : Dict Binding} (h : kwargsEquiv k₁ k₂)
    (p : String × Binding) : kwargsEquiv (k₁ ++ [p]) (k₂ ++ [p]) :=
  List.rel_append h (List.Forall₂.cons ⟨rfl, Or.inl rfl⟩ List.Forall₂.nil)

theorem inject_defaults_equiv (defaults : Dict Binding) :
    ∀ {k₁ k₂ : Dict Binding}, kwargsEquiv k₁ k₂ →
      kwargsEquiv (inject_defaults defaults k₁) (inject_defaults defaults k₂) := by
  induction defaults with
  | nil => intro k₁ k₂ h; exact h
  | cons p rest ih =>
    intro k₁ k₂ h
    unfold inject_defaults
    simp only [List.foldl_cons]
    rw [← containsKey_equiv h p.1]
    by_cases hc : containsKey k₁ p.1 = true
    · rw [if_pos hc, if_pos hc]
      exact ih h
    · rw [if_neg hc, if_neg hc]
      exact ih (kwargsEquiv_append h p)

theorem filterSymbols_equiv (s : Finset String) {k₁ k₂ : Dict Binding}
    (h : kwargsEquiv k₁ k₂) :
    kwargsEquiv (filterSymbols s k₁) (filterSymbols s k₂) := by
  induction h with
  | nil => exact List.Forall₂.nil
  | @cons p q r₁ r₂ hpq hrest ih =>
    unfold filterSymbols at ih ⊢
    simp only [List.filter_cons, hpq.1]
    by_cases hs : q.1 ∈ s
    · simp only [hs, decide_eq_true_eq, if_true, decide_True]
      exact List.Forall₂.cons hpq ih
    · simp only [hs, decide_eq_true_eq, if_false, decide_False]
      exact ih

theorem central0_equiv {b₁ b₂ : Binding} (h : bindingEquiv b₁ b₂) :
    central0 b₁ = central0 b₂ := by
  rcases h with h | ⟨v, h1, h2⟩
  · rw [h]
  · rw [h1, h2]
    rfl

theorem valuesOf_equiv {k₁ k₂ : Dict Binding} (h : kwargsEquiv k₁ k₂) :
    valuesOf k₁ = valuesOf k₂ := by
  induction h with
  | nil => rfl
  | cons hpq _ ih =>
    simp only [valuesOf, List.map_cons] at ih ⊢
    rw [hpq.1, central0_equiv hpq.2, ih]

theorem mu_cons_num (k : String) (x : ℝ) (rest : Dict Binding) :
    max_uncertainties ((k, .num x) :: rest) = max_uncertainties rest := by
  rfl

theorem mu_cons_seq (k : String) (items : List Atom) (rest : Dict Binding) :
    max_uncertainties ((k, .seq items) :: rest) =
      max items.length (max_uncertainties rest) := by
  rfl

theorem mu_bounds {k₁ k₂ : Dict Binding} (h : kwargsEquiv k₁ k₂) :
    max_uncertainties k₁ ≤ max_uncertainties k₂ ∧
      max_uncertainties k₂ ≤ max (max_uncertainties k₁) 1 := by
  induction h with
  | nil => simp [max_uncertainties]
  | @cons p q r₁ r₂ hpq hrest ih =>
    obtain ⟨ih₁, ih₂⟩ := ih
    rcases hpq.2 with heq | ⟨v, h1, h2⟩
    · obtain ⟨pk, pv⟩ := p
      obtain ⟨qk, qv⟩ := q
      simp only at heq
      subst heq
      cases pv with
      | num x => rw [mu_cons_num, mu_cons_num]; exact ⟨ih₁, by omega⟩
      | seq items =>
        rw [mu_cons_seq, mu_cons_seq]
        constructor
        · omega
        · omega
    · obtain ⟨pk, pv⟩ := p
      obtain ⟨qk, qv⟩ := q
      simp only at h1 h2
      subst h1
      subst h2
      rw [mu_cons_num, mu_cons_seq]
      simp only [List.length_cons, List.length_nil]
      constructor
      · omega
      · omega

theorem columnAt_equiv {k₁ k₂ : Dict Binding} (h : kwargsEquiv k₁ k₂) (i : ℕ)
    (hi : 1 ≤ i) : columnAt k₁ i = columnAt k₂ i := by
  induction h with
  | nil => rfl
  | cons hpq _ ih =>
    unfold columnAt at ih ⊢
    simp only [List.filterMap_cons]
    rcases hpq.2 with heq | ⟨v, h1, h2⟩
    · rw [hpq.1, heq, ih]
    · rw [h1, h2]
      simp only [List.length_cons, List.length_nil]
      rw [if_neg (by omega)]
      exact ih

theorem errorsOf_equiv {k₁ k₂ : Dict Binding} (h : kwargsEquiv k₁ k₂) :
    errorsOf k₁ = errorsOf k₂ := by
  rw [errorsOf_eq_columns, errorsOf_eq_columns]
  obtain ⟨h1, h2⟩ := mu_bounds h
  have hcount : max_uncertainties k₁ - 1 = max_uncertainties k₂ - 1 := by omega
  rw [← hcount]
  apply List.map_congr_left
  intro i hi
  exact columnAt_equiv h i (List.mem_range'_1.mp hi).1

/-- Binding a variable as a one-element tuple `(v,)` instead of the bare
scalar `v` (anywhere in the kwargs, also for the recursive dependency
calls) changes nothing: the whole call, cache updates included, is
invariant. -/
theorem unwrap_inv : ∀ n : ℕ,
    (∀ sv : SV, sizeOf sv ≤ n → ∀ c k₁ k₂, kwargsEquiv k₁ k₂ →
      sv.callC c k₁ = sv.callC c k₂) ∧
    (∀ deps : List (String × SV), sizeOf deps ≤ n → ∀ cs k₁ k₂, kwargsEquiv k₁ k₂ →
      (calc_deps deps cs k₁).2 = (calc_deps deps cs k₂).2 ∧
        depRel (calc_deps deps cs k₁).1 (calc_deps deps cs k₂).1) := by
  intro n
  induction n using Nat.strong_induction_on with
  | _ n IH =>
  constructor
  · intro sv hsz c k₁ k₂ hk
    obtain ⟨e, deps, df⟩ := sv
    obtain ⟨own, dcs⟩ := c
    have hlt : sizeOf deps < sizeOf (SV.mk e deps df) := by
      simp [SV.mk.sizeOf_spec]
      omega
    have hdIH := (IH (sizeOf deps) (lt_of_lt_of_le hlt hsz)).2 deps le_rfl dcs k₁ k₂ hk
    rcases hc1 : calc_deps deps dcs k₁ with ⟨r1, dcs1⟩
    rcases hc2 : calc_deps deps dcs k₂ with ⟨r2, dcs2⟩
    rw [hc1, hc2] at hdIH
    obtain ⟨hcache, hrel⟩ := hdIH
    simp only at hcache
    subst hcache
    simp only [SV.callC, hc1, hc2]
    cases r1 with
    | error err₁ =>
      cases r2 with
      | error err₂ =>
        have : err₁ = err₂ := hrel
        rw [this]
      | ok pr => exact absurd hrel not_false
    | ok pr₁ =>
      cases r2 with
      | error err₂ => exact absurd hrel not_false
      | ok pr₂ =>
        obtain ⟨kw₁, rep₁⟩ := pr₁
        obtain ⟨kw₂, rep₂⟩ := pr₂
        obtain ⟨hkw, hrep⟩ := hrel
        subst hrep
        have hinj := inject_defaults_equiv df hkw
        have hks := keyset_equiv hinj
        have hfs := filterSymbols_equiv e.freeVars hinj
        have hvals := valuesOf_equiv hfs
        have herrs := errorsOf_equiv hfs
        simp only
        rw [hks, hvals, herrs]
  · intro deps hsz cs k₁ k₂ hk
    cases deps with
    | nil => exact ⟨rfl, ⟨hk, rfl⟩⟩
    | cons hd rest =>
      obtain ⟨name, q⟩ := hd
      have sizeq : sizeOf q < sizeOf ((name, q) :: rest) := by
        simp
        omega
      have sizer : sizeOf rest < sizeOf ((name, q) :: rest) := by
        simp
      have IHq := (IH _ (lt_of_lt_of_le sizeq hsz)).1 q le_rfl
      have IHr := (IH _ (lt_of_lt_of_le sizer hsz)).2 rest le_rfl
      simp only [calc_deps]
      rw [← containsKey_equiv hk name]
      by_cases hck : containsKey k₁ name = true
      · rw [if_pos hck, if_pos hck]
        obtain ⟨h1, h2⟩ := IHr cs.tail k₁ k₂ hk
        exact ⟨by rw [h1], h2⟩
      · rw [if_neg hck, if_neg hck]
        have hq := IHq (cs.headD (.mk [] [])) k₁ k₂ hk
        rcases hq1 : q.callC (cs.headD (.mk [] [])) k₁ with ⟨t1, c1⟩
        rcases hq2 : q.callC (cs.headD (.mk [] [])) k₂ with ⟨t2, c2⟩
        rw [hq1, hq2] at hq
        obtain ⟨ht, hcc⟩ : t1 = t2 ∧ c1 = c2 := by
          constructor
          · exact congrArg Prod.fst hq
          · exact congrArg Prod.snd hq
        subst ht
        subst hcc
        cases t1 with
        | error err => exact ⟨rfl, rfl⟩
        | ok tmp =>
          simp only
          have hk' := kwargsEquiv_append hk (name, asBinding tmp)
          obtain ⟨h1, h2⟩ := IHr cs.tail (k₁ ++ [(name, asBinding tmp)])
            (k₂ ++ [(name, asBinding tmp)]) hk'
          rcases hr1 : calc_deps rest cs.tail (k₁ ++ [(name, asBinding tmp)]) with ⟨s1, es1⟩
          rcases hr2 : calc_deps rest cs.tail (k₂ ++ [(name, asBinding tmp)]) with ⟨s2, es2⟩
          rw [hr1, hr2] at h1 h2
          simp only at h1
          subst h1
          cases s1 with
          | error err₁ =>
            cases s2 with
            | error err₂ =>
              have : err₁ = err₂ := h2
              rw [this]
              exact ⟨rfl, rfl⟩
            | ok pr => exact absurd h2 not_false
          | ok pr₁ =>
            cases s2 with
            | error err₂ => exact absurd h2 not_false
            | ok pr₂ =>
              obtain ⟨kw₁, dvs₁⟩ := pr₁
              obtain ⟨kw₂, dvs₂⟩ := pr₂
              obtain ⟨hkw, hdvs⟩ := h2
              subst hdvs
              exact ⟨rfl, ⟨hkw, rfl⟩⟩

/-! ### Claim theorems -/

/-- C3: bindings whose uncertainty magnitude for a column is zero are
excluded from that column's quadrature sum (they contribute nothing and
are not treated as missing): on `f = a*b+c`,
`call(a=(1,0), b=(1,0), c=(1,5))` returns central value 2 and error 5;
and in general removing a zero-uncertainty entry from a column leaves
the propagated error unchanged. -/
theorem claim_C3_zero_uncertainty_excluded :
    call svABC [("a", .seq [.num 1, .num 0]), ("b", .seq [.num 1, .num 0]),
        ("c", .seq [.num 1, .num 5])] = .ok (.tup [.num 2, .num 5]) ∧
    ∀ (values : Dict ℝ) (derivs : Dict Expr) (pre post : Dict ℝ) (v : String),
      calculate_gauss_propagation values derivs (pre ++ (v, 0) :: post)
        = calculate_gauss_propagation values derivs (pre ++ post) := by
  constructor
  · simp +decide [call, SV.callC, calc_deps, svABC, SV.make, SV.initCache, initCaches,
      inject_defaults, Expr.freeVars, keyset, keysOf, filterSymbols, errorsOf,
      max_uncertainties, tupleLen, valuesOf, central0, filter_out_vecotrized,
      calculate_central_value, envOf, lookupD, lookup?, Expr.eval, calculate_errors,
      calculate_gauss_propagation, get_derivatives, extend_derivatives, containsKey,
      Expr.sdiff, join_row, List.range', scalarAtom]
    norm_num
  · exact gauss_drops_zero

/-- C5: with `y = SecondaryValue('a + x', dependencies=dict(x=SecondaryValue('b')))`,
the direct binding `x=1` wins and the dependency is never invoked (the
computed dependency report is empty).  The code, however, returns the
bare central value `2` with no dependency report attached at all —
`retdeps=True` is silently discarded — whereas `test_overwrite` expects
the pair `(2, {})`, so the code contradicts its own test suite.  This
theorem evaluates the code at the failing input (`retdeps=True` is the
numeric binding `1`, Python's `True`; it is filtered out exactly like
any other non-symbol binding). -/
theorem claim_C5_direct_binding_wins :
    call svY [("a", .num 1), ("x", .num 1), ("retdeps", .num 1)]
      = .ok (.bare (.num 2)) := by
  simp +decide [call, SV.callC, calc_deps, svY, svX, SV.make, SV.initCache, initCaches,
    inject_defaults, Expr.freeVars, keyset, keysOf, filterSymbols, errorsOf,
    max_uncertainties, tupleLen, valuesOf, central0, filter_out_vecotrized,
    calculate_central_value, envOf, lookupD, lookup?, Expr.eval, containsKey]
  norm_num

/-- C9: a call is a deterministic function of the construction inputs
and the bindings: re-calling with identical bindings after the first
call has lazily populated the derivative caches returns the identical
result. -/
theorem claim_C9_idempotent_calls (sv : SV) (kwargs : Dict Binding) :
    (sv.callC ((sv.callC sv.initCache kwargs).2) kwargs).1
      = (sv.callC sv.initCache kwargs).1 := by
  have h0 := validC_init sv
  have h1 := (cache_inv (sizeOf sv)).1 sv le_rfl sv.initCache kwargs h0
  have h2 := (cache_inv (sizeOf sv)).1 sv le_rfl ((sv.callC sv.initCache kwargs).2)
    kwargs h1.2
  rw [h2.1]

/-- C10 (amended): binding a variable to the one-element tuple `(v,)`
for a scalar `v` yields the same call outcome (result and caches) as
binding the bare scalar `v`, for every quantity, every cache state and
every placement inside the kwargs — one-element sequences contribute no
error column and their single element is the central value. -/
theorem claim_C10_one_tuple_eq_bare (sv : SV) (c : CacheT) (k₁ k₂ : Dict Binding)
    (h : kwargsEquiv k₁ k₂) : sv.callC c k₁ = sv.callC c k₂ :=
  (unwrap_inv (sizeOf sv)).1 sv le_rfl c k₁ k₂ h

theorem claim_C10_one_tuple_eq_bare_witness :
    kwargsEquiv [("a", Binding.num 2)] [("a", Binding.seq [Atom.num 2])] ∧
    svA.callC svA.initCache [("a", Binding.num 2)]
      = svA.callC svA.initCache [("a", Binding.seq [Atom.num 2])] := by
  have hequiv : kwargsEquiv [("a", Binding.num 2)] [("a", Binding.seq [Atom.num 2])] :=
    List.Forall₂.cons ⟨rfl, Or.inr ⟨2, rfl, rfl⟩⟩ List.Forall₂.nil
  exact ⟨hequiv, claim_C10_one_tuple_eq_bare svA svA.initCache _ _ hequiv⟩

/-- C10, counterexample to the claim as stated: for an array value
`v = [1,2]`, binding `a=([1,2],)` yields the bare central array
`[1,2]`, while binding the bare `a=[1,2]` is parsed as central `1` with
error component `2` and yields the tuple `(1, 2)` — not the same
result. -/
theorem claim_C10_counterexample :
    call svA [("a", .seq [.arr [1, 2]])] = .ok (.bare (.arr [1, 2])) ∧
    call svA [("a", .seq [.num 1, .num 2])] = .ok (.tup [.num 1, .num 2]) ∧
    Res.bare (.arr [1, 2]) ≠ Res.tup [.num 1, .num 2] := by
  refine ⟨?_, ?_, by simp⟩
  · simp +decide [call, SV.callC, calc_deps, svA, SV.make, SV.initCache, initCaches,
      inject_defaults, Expr.freeVars, keyset, keysOf, filterSymbols, errorsOf,
      max_uncertainties, tupleLen, valuesOf, central0, filter_out_vecotrized,
      calculate_central_value, envOf, lookupD, lookup?, Expr.eval, containsKey,
      vecLenMax, join_row]
    rw [show List.range 2 = [0, 1] from rfl]
    simp
  · simp +decide [call, SV.callC, calc_deps, svA, SV.make, SV.initCache, initCaches,
      inject_defaults, Expr.freeVars, keyset, keysOf, filterSymbols, errorsOf,
      max_uncertainties, tupleLen, valuesOf, central0, filter_out_vecotrized,
      calculate_central_value, envOf, lookupD, lookup?, Expr.eval, calculate_errors,
      calculate_gauss_propagation, get_derivatives, extend_derivatives, containsKey,
      Expr.sdiff, join_row, List.range', scalarAtom]

/-- C6, counterexample to the claim as stated: on
`call(a=(1,0), b=(1,0), c=(1,5))` over `f = a*b+c`, the only variable
carrying a non-zero uncertainty in the first (and only) error column is
`c`, yet the code fetches/creates derivatives for all of `a`, `b`, `c` —
the post-call derivative cache holds entries for every name present in
the first error column, zero uncertainty or not. -/
theorem claim_C6_counterexample :
    keysOf ((svABC.callC svABC.initCache
        [("a", .seq [.num 1, .num 0]), ("b", .seq [.num 1, .num 0]),
          ("c", .seq [.num 1, .num 5])]).2).own = ["a", "b", "c"] ∧
    (["a", "b", "c"] : List String) ≠ ["c"] := by
  refine ⟨?_, by decide⟩
  simp +decide [call, SV.callC, calc_deps, svABC, SV.make, SV.initCache, initCaches,
    inject_defaults, Expr.freeVars, keyset, keysOf, filterSymbols, errorsOf,
    max_uncertainties, tupleLen, valuesOf, central0, filter_out_vecotrized,
    calculate_central_value, envOf, lookupD, lookup?, Expr.eval, calculate_errors,
    calculate_gauss_propagation, get_derivatives, extend_derivatives, containsKey,
    Expr.sdiff, join_row, List.range', scalarAtom, CacheT.own]

/-- C1, counterexample to the claim as stated ("for any real
`a0,b0,c0,σa,σb,σc`"): with the negative uncertainty `σa = -1` the
`err > 0` filter of `_calculate_gauss_propagation` silently drops the
`a` term, so `call(a=(1,-1), b=(2,0), c=(3,5))` on `f = a*b+c` returns
error `5`, while the claimed formula gives `sqrt((-1*2)^2 + 0 + 5^2) =
sqrt 29 ≠ 5`. -/
theorem claim_C1_counterexample :
    call svABC [("a", .seq [.num 1, .num (-1)]), ("b", .seq [.num 2, .num 0]),
        ("c", .seq [.num 3, .num 5])] = .ok (.tup [.num 5, .num 5]) ∧
    Real.sqrt (((-1) * 2) ^ 2 + (0 * 1) ^ 2 + (5 : ℝ) ^ 2) ≠ 5 := by
  constructor
  · simp +decide [call, SV.callC, calc_deps, svABC, SV.make, SV.initCache, initCaches,
      inject_defaults, Expr.freeVars, keyset, keysOf, filterSymbols, errorsOf,
      max_uncertainties, tupleLen, valuesOf, central0, filter_out_vecotrized,
      calculate_central_value, envOf, lookupD, lookup?, Expr.eval, calculate_errors,
      calculate_gauss_propagation, get_derivatives, extend_derivatives, containsKey,
      Expr.sdiff, join_row, List.range', scalarAtom]
    norm_num
  · intro h
    have h29 : ((-1 : ℝ) * 2) ^ 2 + (0 * 1) ^ 2 + (5 : ℝ) ^ 2 = 29 := by norm_num
    rw [h29] at h
    have := congrArg (fun x : ℝ => x ^ 2) h
    simp only at this
    rw [Real.sq_sqrt (by norm_num : (0:ℝ) ≤ 29)] at this
    norm_num at this

/-- C1 (amended: uncertainties restricted to nonnegative values, which
the `err > 0` exclusion of zero entries keeps harmless): for
`f = a*b+c` with bindings `a=(a0,σa)`, `b=(b0,σb)`, `c=(c0,σc)` and
`σa,σb,σc ≥ 0`, the returned combined error is exactly
`sqrt((σa*b0)^2 + (σb*a0)^2 + σc^2)`, the root-sum-of-squares of the
partial derivatives of the expression at the central values times the
uncertainties. -/
theorem claim_C1_gauss_quadrature (a0 b0 c0 sa sb sc : ℝ)
    (ha : 0 ≤ sa) (hb : 0 ≤ sb) (hc : 0 ≤ sc) :
    call svABC [("a", .seq [.num a0, .num sa]), ("b", .seq [.num b0, .num sb]),
        ("c", .seq [.num c0, .num sc])]
      = .ok (.tup [.num (a0 * b0 + c0),
          .num (Real.sqrt ((sa * b0) ^ 2 + (sb * a0) ^ 2 + sc ^ 2))]) := by
  simp +decide [call, SV.callC, calc_deps, svABC, SV.make, SV.initCache, initCaches,
    inject_defaults, Expr.freeVars, keyset, keysOf, filterSymbols, errorsOf,
    max_uncertainties, tupleLen, valuesOf, central0, filter_out_vecotrized,
    calculate_central_value, envOf, lookupD, lookup?, Expr.eval, calculate_errors,
    get_derivatives, extend_derivatives, containsKey,
    Expr.sdiff, join_row, List.range', scalarAtom]
  rw [gauss_eq_quadrature _ _ _ (by
    intro p hp
    simp only [List.mem_cons, List.not_mem_nil, or_false] at hp
    rcases hp with rfl | rfl | rfl
    · exact ha
    · exact hb
    · exact hc)]
  simp [Expr.eval, lookupD, lookup?, envOf]
  congr 1
  ring

theorem claim_C1_gauss_quadrature_witness :
    call svABC [("a", .seq [.num 1, .num 3]), ("b", .seq [.num 1, .num 4]),
        ("c", .seq [.num 2, .num 0])] = .ok (.tup [.num 3, .num 5]) := by
  have h := claim_C1_gauss_quadrature 1 1 2 3 4 0 (by norm_num) (by norm_num) (by norm_num)
  rw [h]
  norm_num
  rw [show (25:ℝ) = 5 ^ 2 by norm_num]
  exact Real.sqrt_sq (by norm_num)

/-- C2: with `y = SecondaryValue('a + x', dependencies=dict(x=SecondaryValue('b')))`
and bindings `a=(a0,σa)`, `b=(b0,σb)`, the dependency's full result
`(b0, σb)` is re-bound under `x`, of which only the leading
central-value slot `b0` enters the parent's evaluation (central value
`a0 + b0`); the dependency's combined uncertainty is not re-derived
through the dependency's expression — it enters the parent's quadrature
only as the uncertainty of the atomic variable `x`, weighted by the
parent's own derivative `∂(a+x)/∂x = 1`, giving `sqrt(σa^2 + σb^2)`
(this matches `test_dep_calc_err`). -/
theorem claim_C2_dep_central_substitution (a0 sa b0 sb : ℝ) (ha : 0 ≤ sa) (hb : 0 ≤ sb) :
    call svY [("a", .seq [.num a0, .num sa]), ("b", .seq [.num b0, .num sb])]
      = .ok (.pair (.tup [.num (a0 + b0), .num (Real.sqrt (sa ^ 2 + sb ^ 2))])
          [("x", .tup [.num b0, .num sb])]) := by
  simp +decide [call, SV.callC, calc_deps, svY, svX, SV.make, SV.initCache, initCaches,
    inject_defaults, Expr.freeVars, keyset, keysOf, filterSymbols, errorsOf,
    max_uncertainties, tupleLen, valuesOf, central0, filter_out_vecotrized,
    calculate_central_value, envOf, lookupD, lookup?, Expr.eval, calculate_errors,
    get_derivatives, extend_derivatives, containsKey,
    Expr.sdiff, join_row, List.range', scalarAtom, asBinding]
  have hinner : calculate_gauss_propagation [("b", b0)] [("b", Expr.const 1)] [("b", sb)]
      = sb := by
    rw [gauss_eq_quadrature _ _ _ (by
      intro p hp
      simp only [List.mem_singleton] at hp
      rw [hp]
      exact hb)]
    simp [Expr.eval, lookupD, lookup?, envOf]
    exact Real.sqrt_sq hb
  rw [hinner]
  refine ⟨?_, rfl⟩
  rw [gauss_eq_quadrature _ _ _ (by
    intro p hp
    simp only [List.mem_cons, List.not_mem_nil, or_false] at hp
    rcases hp with rfl | rfl
    · exact ha
    · exact hb)]
  simp [Expr.eval, lookupD, lookup?, envOf]

theorem claim_C2_dep_central_substitution_witness :
    call svY [("a", .seq [.num 1, .num 3]), ("b", .seq [.num 2, .num 4])]
      = .ok (.pair (.tup [.num 3, .num 5]) [("x", .tup [.num 2, .num 4])]) := by
  have h := claim_C2_dep_central_substitution 1 3 2 4 (by norm_num) (by norm_num)
  rw [h]
  norm_num
  rw [show (25:ℝ) = 5 ^ 2 by norm_num]
  exact Real.sqrt_sq (by norm_num)

theorem foldr_max_const : ∀ {l : List ℕ} {N : ℕ}, (∀ x ∈ l, x = N) → l ≠ [] →
    l.foldr max 0 = N := by
  intro l
  induction l with
  | nil => intro N _ hne; exact absurd rfl hne
  | cons x rest ih =>
    intro N h _
    have hx : x = N := h x (List.mem_cons_self x rest)
    cases rest with
    | nil => simp [hx]
    | cons y ys =>
      have hr := ih (fun z hz => h z (List.mem_cons_of_mem x hz)) (by simp)
      simp only [List.foldr_cons] at hr ⊢
      rw [hx, hr]
      omega

/-- C4: after dependency resolution succeeds and defaults are injected,
the call raises the `MissingSymbols` error carrying exactly the set
difference (free variables minus bound names) when the bound names do
not cover the free-variable set, and raises no such error (the call
returns a result) when they do.  Other Python run-time failures, such
as `IndexError` on ragged arrays, are outside this model as they are
outside the engine's error contract. -/
theorem claim_C4_missing_symbols (sv : SV) (c : CacheT) (kwargs kwargs₁ : Dict Binding)
    (report : List (String × Res)) (dcs' : List CacheT)
    (hdeps : calc_deps sv.deps c.depCaches kwargs = (.ok (kwargs₁, report), dcs')) :
    (¬ sv.expr.freeVars ⊆ keyset (inject_defaults sv.defaults kwargs₁) →
      (sv.callC c kwargs).1 = .error (.missingSymbols
        (sv.expr.freeVars \ keyset (inject_defaults sv.defaults kwargs₁)))) ∧
    (sv.expr.freeVars ⊆ keyset (inject_defaults sv.defaults kwargs₁) →
      ∃ r, (sv.callC c kwargs).1 = .ok r) := by
  obtain ⟨e, deps, df⟩ := sv
  obtain ⟨own, dcs⟩ := c
  simp only [SV.deps, SV.expr, SV.defaults, CacheT.depCaches] at hdeps ⊢
  simp only [SV.callC, hdeps]
  constructor
  · intro h
    rw [if_neg h]
  · intro h
    rw [if_pos h]
    by_cases h1 : (errorsOf (filterSymbols e.freeVars (inject_defaults df kwargs₁))).isEmpty = true
    · rw [if_pos h1]
      exact ⟨_, rfl⟩
    · rw [if_neg h1]
      by_cases h2 : report.isEmpty = true
      · rw [if_pos h2]
        exact ⟨_, rfl⟩
      · rw [if_neg h2]
        exact ⟨_, rfl⟩

theorem claim_C4_missing_symbols_witness :
    (svABC.callC svABC.initCache [("a", Binding.num 1)]).1
        = .error (.missingSymbols {"b", "c"}) ∧
    ∃ r, (svABC.callC svABC.initCache
        [("a", Binding.num 1), ("b", Binding.num 1), ("c", Binding.num 1)]).1 = .ok r := by
  constructor
  · have h1 := claim_C4_missing_symbols svABC svABC.initCache [("a", Binding.num 1)]
      [("a", Binding.num 1)] [] []
      (by simp +decide [calc_deps, svABC, SV.make, SV.deps, SV.initCache, initCaches,
        CacheT.depCaches])
    rw [h1.1 (by decide)]
    simp only [Except.error.injEq, CallErr.missingSymbols.injEq]
    decide
  · exact (claim_C4_missing_symbols svABC svABC.initCache
      [("a", Binding.num 1), ("b", Binding.num 1), ("c", Binding.num 1)]
      [("a", Binding.num 1), ("b", Binding.num 1), ("c", Binding.num 1)] [] []
      (by simp +decide [calc_deps, svABC, SV.make, SV.deps, SV.initCache, initCaches,
        CacheT.depCaches])).2 (by decide)

/-- C6 (amended): derivatives are retrieved or created for exactly the
variable names present (non-missing) in the first error column —
including names whose uncertainty is zero — and every later error
column's variable set is a subset of the first column's (a later column
can never introduce a new variable), so the propagation's derivative
lookups always succeed. -/
theorem claim_C6_derivative_lookup (e : Expr) (own : Dict Expr) (args : List String)
    (h : validOwn e own) :
    (get_derivatives e own args).1 = args.map (fun v => (v, e.sdiff v)) ∧
    keysOf (get_derivatives e own args).1 = args ∧
    ∀ (kwargs : Dict Binding) (col : Dict Atom), col ∈ errorsOf kwargs →
      ∀ v ∈ keysOf col, v ∈ keysOf ((errorsOf kwargs).headD []) := by
  have hg := get_derivatives_of_valid args h
  refine ⟨hg.1, ?_, ?_⟩
  · rw [hg.1]
    unfold keysOf
    rw [List.map_map]
    have hid : ∀ v ∈ args, ((fun p => p.1) ∘ fun v => (v, e.sdiff v)) v = id v :=
      fun v _ => rfl
    rw [List.map_congr_left hid]
    exact List.map_id args
  · intro kwargs col hcol v hv
    exact errorsOf_keys_subset hcol hv

theorem claim_C6_derivative_lookup_witness :
    keysOf (get_derivatives (Expr.var "a") [] ["a", "b"]).1 = ["a", "b"] :=
  (claim_C6_derivative_lookup (Expr.var "a") [] ["a", "b"] (validOwn_nil _)).2.1

/-- C7: with no vector-valued binding the central value is a single
scalar; with at least one vector-valued binding it is an array whose
length is the maximum length among the vector-valued bindings, whose
entry `i` is the scalar evaluation at sample `i` (vector bindings
indexed at `i`, scalars held fixed); and when all participating vectors
(central values and error components) share a common length `N > 0`,
every error column is a length-`N` array of per-sample propagated
errors. -/
theorem claim_C7_vectorized_shapes (e : Expr) (scalar : Dict ℝ) (vector : Dict (List ℝ))
    (derivs : Dict Expr) (errors : List (Dict Atom)) (N : ℕ) :
    (vector = [] → calculate_central_value e scalar vector
        = .num (e.eval (envOf scalar))) ∧
    (vector ≠ [] → calculate_central_value e scalar vector
        = .arr ((List.range (vecLenMax vector)).map
            (fun i => e.eval (envOf (join_row scalar vector i))))) ∧
    (0 < N → vector ≠ [] → (∀ p ∈ vector, p.2.length = N) →
      (∀ err ∈ errors, ∀ p ∈ (filter_out_vecotrized err).2, p.2.length = N) →
      calculate_errors derivs errors vector scalar
        = errors.map (fun err => Atom.arr ((List.range N).map (fun i =>
            calculate_gauss_propagation (join_row scalar vector i) derivs
              (join_row (filter_out_vecotrized err).1 (filter_out_vecotrized err).2 i))))) := by
  refine ⟨?_, ?_, ?_⟩
  · intro h
    subst h
    simp [calculate_central_value]
  · intro h
    unfold calculate_central_value
    rw [if_neg (by simpa [List.isEmpty_iff] using h)]
  · intro hN hne hlen herr
    unfold calculate_errors
    apply List.map_congr_left
    intro err hmem
    simp only
    have hfold : ((vector ++ (filter_out_vecotrized err).2).map
        (fun p => p.2.length)).foldr max 0 = N := by
      apply foldr_max_const
      · intro x hx
        rw [List.map_append] at hx
        rcases List.mem_append.mp hx with hx | hx
        · obtain ⟨p, hp, hpx⟩ := List.mem_map.mp hx
          rw [← hpx]
          exact hlen p hp
        · obtain ⟨p, hp, hpx⟩ := List.mem_map.mp hx
          rw [← hpx]
          exact herr err hmem p hp
      · simp only [ne_eq, List.map_eq_nil_iff, List.append_eq_nil]
        intro hcon
        exact hne hcon.1
    rw [hfold, if_neg (by omega)]

theorem claim_C7_vectorized_shapes_witness :
    calculate_central_value (Expr.var "a") [] [("a", [5, 7])] = Atom.arr [5, 7] ∧
    calculate_errors [("a", Expr.const 1)] [[("a", Atom.num 2)]] [("a", [5, 7])] []
      = [Atom.arr [2, 2]] := by
  have h := claim_C7_vectorized_shapes (Expr.var "a") [] [("a", [5, 7])]
    [("a", Expr.const 1)] [[("a", Atom.num 2)]] 2
  constructor
  · rw [h.2.1 (by simp)]
    rw [show vecLenMax [("a", [5, 7])] = 2 from rfl,
      show List.range 2 = [0, 1] from rfl]
    simp [join_row, envOf, lookupD, lookup?, Expr.eval]
  · rw [h.2.2 (by norm_num) (by simp)
      (by intro p hp; simp only [List.mem_singleton] at hp; rw [hp]; rfl)
      (by
        intro err herr p hp
        simp only [List.mem_singleton] at herr
        rw [herr] at hp
        simp [filter_out_vecotrized] at hp)]
    rw [show List.range 2 = [0, 1] from rfl]
    simp [calculate_gauss_propagation, join_row, filter_out_vecotrized, envOf, lookupD,
      lookup?, Expr.eval]

/-- C8: each configured default whose name is absent after dependency
resolution is inserted (with its full value, uncertainty included),
presence is never overridden — and concretely
`SecondaryValue('a+b', defaults=dict(a=(1,2)))` called with `b=1`
returns `(2, 2)`. -/
theorem claim_C8_defaults :
    (∀ (defaults kwargs : Dict Binding) (name : String),
      containsKey kwargs name = true →
        lookup? (inject_defaults defaults kwargs) name = lookup? kwargs name) ∧
    (∀ (defaults kwargs : Dict Binding) (name : String) (v : Binding),
      containsKey kwargs name = false → lookup? defaults name = some v →
        lookup? (inject_defaults defaults kwargs) name = some v) ∧
    call svAB [("b", .num 1)] = .ok (.tup [.num 2, .num 2]) := by
  refine ⟨?_, ?_, ?_⟩
  · intro defaults kwargs name h
    exact (inject_defaults_preserves defaults kwargs name h).1
  · intro defaults kwargs name v h1 h2
    exact inject_defaults_inserts defaults kwargs name v h1 h2
  · simp +decide [call, SV.callC, calc_deps, svAB, SV.make, SV.initCache, initCaches,
      inject_defaults, Expr.freeVars, keyset, keysOf, filterSymbols, errorsOf,
      max_uncertainties, tupleLen, valuesOf, central0, filter_out_vecotrized,
      calculate_central_value, envOf, lookupD, lookup?, Expr.eval, calculate_errors,
      calculate_gauss_propagation, get_derivatives, extend_derivatives, containsKey,
      Expr.sdiff, join_row, List.range', scalarAtom]
    norm_num

theorem claim_C8_defaults_witness :
    lookup? (inject_defaults [("a", Binding.num 5)] [("a", Binding.num 7)]) "a"
      = some (Binding.num 7) := by
  rw [claim_C8_defaults.1 [("a", Binding.num 5)] [("a", Binding.num 7)] "a"
    (by simp [containsKey])]
  simp [lookup?]

end SVM
